import Mathlib

/-!
# Verification of the matematiikkavalmennusbot feed core

A shallow embedding of `src/matematiikkavalmennusbot/rss.py` and the
relevant part of `src/matematiikkavalmennusbot/main.py`.

Modelling conventions:

* The persisted TOML state file is modelled by `StateFile`: it is either
  missing on disk, present but unparseable (`corrupt`), or a parsed
  document `StateDoc`.
* `tomlkit` semantics: assigning a non-table value to a top-level key of a
  document that already contains a table inserts the value *before* the
  first table, so the rendered document stays valid TOML and the key stays
  a top-level key.  Hence `data["entries_seen"] = ...` in `save_entry_ids`
  produces a document-level `entries_seen` key that is a sibling of the
  `[feed]` table, which is exactly what `get_seen_entry_ids` reads back
  with `data.get("entries_seen", [])`.  `StateDoc` encodes this layout.
* `tomlkit.load` raises `ParseError` on an unparseable file; in
  `get_feed_headers` only `FileNotFoundError` and `KeyError` are caught,
  and in `get_seen_entry_ids` only `FileNotFoundError`, so a parse error
  propagates (`StoreError.parseError`).  Accessing a missing key of a
  tomlkit document raises `NonExistentKey`, a subclass of `KeyError`.
* In `save_feed_headers` / `save_entry_ids` the file is opened `r+t` and
  `tomlkit.load` runs *before* `os.ftruncate`, so on an unparseable file
  the exception is raised before anything is written: the error branches
  leave the file untouched.
* The Python truth test `if etag:` is false for `None` and for the empty
  string; `truthy` models this.
* `feedparser.parse` is external input: a fetch is modelled as an arbitrary
  function from the cached `(etag, modified)` pair to a parsed feed
  (its entry list) together with the new header values.
-/

namespace MVBot

/-- One content block of a feed entry (`entry.content[i]` of feedparser):
a MIME type tag and a value payload. -/
structure ContentBlock where
  type : String
  value : String
deriving DecidableEq

/-- A feed entry as used by `rss.py`: `id`, `title`, `link`, `content`. -/
structure Entry where
  id : String
  title : String
  link : String
  content : List ContentBlock
deriving DecidableEq

/-- The `[feed]` table of the state file: optional `etag` and `modified`
keys. -/
structure FeedTable where
  etag : Option String
  modified : Option String
deriving DecidableEq

/-- A parsed state document.  `feed` is the optional `[feed]` table;
`entries_seen` is the optional *top-level* array written by
`save_entry_ids` (see the tomlkit note in the file header: tomlkit keeps
it a top-level key, rendered before the `[feed]` table). -/
structure StateDoc where
  feed : Option FeedTable
  entries_seen : Option (List String)
deriving DecidableEq

/-- The on-disk state file: missing, unparseable, or a parsed document. -/
inductive StateFile
  | missing
  | corrupt
  | ok (doc : StateDoc)
deriving DecidableEq

/-- Errors the Python store functions can raise. -/
inductive StoreError
  | parseError
  | fileNotFound
deriving DecidableEq

/-- The empty TOML document (what an empty file parses to). -/
def emptyDoc : StateDoc := ⟨none, none⟩

/-- Python `create_state_file`: open with mode `"a"` and write `""`.  A missing
file becomes an empty (parseable) file; an existing file, parseable or
not, is unchanged. -/
def create_state_file : StateFile → StateFile
  | .missing => .ok emptyDoc
  | st => st

/-- Python truthiness of an optional string (`if etag:`): `None` and the
empty string are falsy. -/
def truthy : Option String → Bool
  | none => false
  | some s => !(s == "")

/-- Python `get_feed_headers`: load the file and read `data["feed"]["etag"]` and
`data["feed"]["modified"]`.  `FileNotFoundError` and `KeyError` (including
tomlkit's `NonExistentKey` for a missing `feed` table) are caught and give
`(None, None)`; a tomlkit `ParseError` is not caught. -/
def get_feed_headers : StateFile → Except StoreError (Option String × Option String)
  | .missing => .ok (none, none)
  | .corrupt => .error .parseError
  | .ok d =>
    match d.feed with
    | none => .ok (none, none)
    | some ft => .ok (ft.etag, ft.modified)

/-- Python `save_feed_headers`: load the document (raising on a corrupt file
before anything is written), get or create the `[feed]` table, set `etag`
and `modified` only when truthy, and dump the document back.  Opening a
missing file with `"r+t"` raises `FileNotFoundError`. -/
def save_feed_headers (etag modified : Option String) : StateFile → Except StoreError StateFile
  | .missing => .error .fileNotFound
  | .corrupt => .error .parseError
  | .ok d =>
    let ft := d.feed.getD ⟨none, none⟩
    let ft := if truthy etag then { ft with etag := etag } else ft
    let ft := if truthy modified then { ft with modified := modified } else ft
    .ok (.ok { d with feed := some ft })

/-- Python `save_entry_ids`: load the document (raising on a corrupt file before
anything is written), get or create the top-level `entries_seen` array,
`extend` it with the given ids (duplicates are appended as given), and
dump the document back. -/
def save_entry_ids (entry_ids : List String) : StateFile → Except StoreError StateFile
  | .missing => .error .fileNotFound
  | .corrupt => .error .parseError
  | .ok d => .ok (.ok { d with entries_seen := some (d.entries_seen.getD [] ++ entry_ids) })

/-- Python `get_seen_entry_ids`: load the file and return
`set(data.get("entries_seen", []))`.  Only `FileNotFoundError` is caught
(giving the empty set); a parse error propagates. -/
def get_seen_entry_ids : StateFile → Except StoreError (Finset String)
  | .missing => .ok ∅
  | .corrupt => .error .parseError
  | .ok d => .ok (d.entries_seen.getD []).toFinset

/-- A fetch of the feed URL: from the cached conditional headers to the
parsed feed's entry list together with `feed.get("etag")` and
`feed.get("modified")` (models `fetch_feed` around `feedparser.parse`). -/
def Fetch : Type := Option String → Option String → List Entry × Option String × Option String

/-- Python `get_unseen_entries`: create the state file, read the cached headers,
fetch, save the new headers, read the seen-id set, filter the fetched
entries to the unseen ones, persist their ids, and return them.  The
result pairs the Python return value (or the raised error) with the state
file as left on disk. -/
def get_unseen_entries (fetch : Fetch) (st0 : StateFile) :
    Except StoreError (List Entry) × StateFile :=
  let st1 := create_state_file st0
  match get_feed_headers st1 with
  | .error e => (.error e, st1)
  | .ok (etag, modified) =>
    let fr := fetch etag modified
    match fr with
    | (entries, new_etag, new_modified) =>
      match save_feed_headers new_etag new_modified st1 with
      | .error e => (.error e, st1)
      | .ok st2 =>
        match get_seen_entry_ids st2 with
        | .error e => (.error e, st2)
        | .ok seen_ids =>
          let new := entries.filter (fun entry => entry.id ∉ seen_ids)
          match save_entry_ids (new.map (·.id)) st2 with
          | .error e => (.error e, st2)
          | .ok st3 => (.ok new, st3)

/-- Python list slice `l[-m:]` for a non-negative `m`: the whole list when
`m = 0` (since `l[-0:] = l[0:]`), otherwise the last `m` elements. -/
def pyLastSlice {α : Type} (m : Nat) (l : List α) : List α :=
  if m = 0 then l else l.drop (l.length - m)

/-- Python `fetch_feed_callback` of `main.py`, delivery side: run the resolver and
deliver (format and send) only `entries[-feed_max:]`.  Returns the list of
delivered entries (or the raised error) and the state file. -/
def fetch_feed_callback (fetch : Fetch) (feed_max : Nat) (st : StateFile) :
    Except StoreError (List Entry) × StateFile :=
  match get_unseen_entries fetch st with
  | (.ok new, st') => (.ok (pyLastSlice feed_max new), st')
  | (.error e, st') => (.error e, st')

/-- A sequence of scheduled poll cycles: each cycle runs
`get_unseen_entries` with that cycle's fetch outcome; an error aborts the
cycle (nothing returned, state as the failed cycle left it) but, as in the
job queue, later cycles still run. -/
def runCycles : List Fetch → StateFile → List (List Entry) × StateFile
  | [], st => ([], st)
  | f :: fs, st =>
    match get_unseen_entries f st with
    | (.ok new, st') =>
      let r := runCycles fs st'
      (new :: r.1, r.2)
    | (.error _, st') =>
      let r := runCycles fs st'
      ([] :: r.1, r.2)

/-- The seen-id set stored in a state file (empty for a missing or
unparseable file). -/
def seenOfFile : StateFile → Finset String
  | .ok d => (d.entries_seen.getD []).toFinset
  | _ => ∅

/-- The conditional-fetch headers a resolver run reads from a document. -/
def headersOfDoc (d : StateDoc) : Option String × Option String :=
  match d.feed with
  | none => (none, none)
  | some ft => (ft.etag, ft.modified)

/-! ## The entry formatter

Text is modelled as `List Char`.  `pyReplace` is Python's
`str.replace` for a non-empty pattern: scan left to right, replace each
non-overlapping occurrence once (the output is not rescanned). -/

/-- The Unicode soft hyphen U+00AD. -/
def softHyphen : Char := Char.ofNat 173

/-- The double-quote character. -/
def quoteChar : Char := Char.ofNat 34

/-- The apostrophe character. -/
def aposChar : Char := Char.ofNat 39

/-- Python `s.replace(old, new)` for non-empty `old`, fuel-bounded: scan
left to right, replace each non-overlapping occurrence once (the output is
not rescanned).  Each step consumes at least one input character, so any
`fuel ≥ l.length` gives the same result; on exhausted fuel the remaining
input is returned unchanged. -/
def pyReplaceAux (old new : List Char) : Nat → List Char → List Char
  | 0, l => l
  | _, [] => []
  | fuel + 1, c :: rest =>
    if old.isPrefixOf (c :: rest) ∧ old ≠ [] then
      new ++ pyReplaceAux old new fuel (rest.drop (old.length - 1))
    else
      c :: pyReplaceAux old new fuel rest

/-- Python `s.replace(old, new)` for non-empty `old` (for empty `old` this
returns `s` unchanged; the program only ever replaces non-empty
patterns). -/
def pyReplace (old new l : List Char) : List Char :=
  pyReplaceAux old new l.length l

/-- Python `html.escape` with the default `quote=True`.  Python applies five
sequential single-character replacements (`&` first, then `<`, `>`, `"`
and the apostrophe); since no inserted expansion contains a character that
is replaced after it, this equals the per-character expansion used here. -/
def escapeChar (c : Char) : List Char :=
  if c = '&' then "&amp;".toList
  else if c = '<' then "&lt;".toList
  else if c = '>' then "&gt;".toList
  else if c = quoteChar then "&quot;".toList
  else if c = aposChar then "&#x27;".toList
  else [c]

/-- Python `html.escape` on a character list. -/
def htmlEscape (l : List Char) : List Char := l.flatMap escapeChar

/-- The tag allow-list passed to `bleach.clean` in `format_entry`. -/
def allowed_tags : List String :=
  ["b", "strong", "i", "em", "u", "ins", "s", "strike", "del",
   "tg-spoiler", "a", "tg-emoji", "code", "pre", "li"]

/-- The attribute allow-list passed to `bleach.clean` in `format_entry`. -/
def allowed_attrs : List (String × List String) :=
  [("a", ["href"]), ("tg-emoji", ["emoji-id"]), ("code", ["class"])]

/-- The attributes allowed on a given tag: the dict lookup, defaulting to
no attributes for tags without an entry. -/
def allowedAttrsFor (tag : String) : List String :=
  ((allowed_attrs.find? (fun p => p.1 = tag)).map (·.2)).getD []

/-- A token of the simplified HTML token stream `bleach.clean` works on:
a text run, or a start/end tag with its attributes. -/
inductive Tok
  | text (cs : List Char)
  | tag (closing : Bool) (name : List Char) (attrs : List (List Char × List Char))
deriving DecidableEq

/-- True for characters that continue a tag or attribute name (letters,
digits and `-`, covering the allow-list's `tg-spoiler`/`tg-emoji`). -/
def isNameChar (c : Char) : Bool :=
  c.isAlpha || c.isDigit || c = '-'

/-- Parse the attribute list inside a tag (names lowercased, values taken
from a double-quoted span or up to the next space); `fuel` bounds the
recursion by the input length. -/
def parseAttrs : Nat → List Char → List (List Char × List Char)
  | 0, _ => []
  | _, [] => []
  | fuel + 1, l =>
    let l := l.dropWhile (fun c => c = ' ' || c = '/')
    match l with
    | [] => []
    | _ :: _ =>
      let name := (l.takeWhile (fun c => isNameChar c)).map Char.toLower
      let rest := l.drop name.length
      if name = [] then
        parseAttrs fuel (l.drop 1)
      else
        match rest with
        | '=' :: v =>
          match v with
          | c :: v' =>
            if c = quoteChar then
              let value := v'.takeWhile (fun x => x ≠ quoteChar)
              (name, value) :: parseAttrs fuel (v'.drop (value.length + 1))
            else
              let value := v.takeWhile (fun x => x ≠ ' ')
              (name, value) :: parseAttrs fuel (v.drop value.length)
          | [] => [(name, [])]
        | _ => (name, []) :: parseAttrs fuel rest

/-- Parse the inside of a tag (the characters between `<` and `>`) into a
token: optional leading `/` marks an end tag, then the lowercased name,
then the attributes. -/
def parseTag (inside : List Char) : Tok :=
  let closing := inside.head? = some '/'
  let body := if closing then inside.drop 1 else inside
  let name := (body.takeWhile (fun c => isNameChar c)).map Char.toLower
  .tag closing name (parseAttrs (body.length + 1) (body.drop name.length))

/-- Tokenize markup: text runs up to `<`; a `<` followed by a letter or
`/` opens a tag read up to the next `>`; any other `<` is literal text
(as in html5lib).  `fuel` bounds the recursion by the input length. -/
def tokenizeAux : Nat → List Char → List Tok
  | 0, _ => []
  | _, [] => []
  | fuel + 1, l =>
    let txt := l.takeWhile (fun c => c ≠ '<')
    let pre := if txt = [] then ([] : List Tok) else [Tok.text txt]
    match l.dropWhile (fun c => c ≠ '<') with
    | [] => pre
    | _ :: r2 =>
      match r2 with
      | [] => pre ++ [Tok.text ['<']]
      | c :: _ =>
        if c.isAlpha || c = '/' then
          let inside := r2.takeWhile (fun x => x ≠ '>')
          let after := (r2.dropWhile (fun x => x ≠ '>')).drop 1
          pre ++ [parseTag inside] ++ tokenizeAux fuel after
        else
          pre ++ [Tok.text ['<']] ++ tokenizeAux fuel r2

/-- Tokenize a whole input. -/
def tokenize (l : List Char) : List Tok := tokenizeAux (l.length + 1) l

/-- The filtering step of `bleach.clean(..., strip=True)`: text is kept, a
tag in the allow-list is kept with only its allowed attributes, and any
other tag is stripped (dropped entirely, its inner text remaining as
separate text tokens), not escaped. -/
def sanitizeToks : List Tok → List Tok :=
  List.filterMap fun t =>
    match t with
    | .text cs => some (.text cs)
    | .tag closing name attrs =>
      if String.mk name ∈ allowed_tags then
        some (.tag closing name
          (attrs.filter (fun a => String.mk a.1 ∈ allowedAttrsFor (String.mk name))))
      else
        none

/-- True of characters that can appear in a character-reference name:
letters and digits, plus `#` for numeric references. -/
def entChar (c : Char) : Bool := c.isAlphanum || c == '#'

/-- Serializer escaping for text runs, fuel-bounded: `<` and `>` are
escaped; an `&` that begins a well-formed character reference `&name;`
(nonempty `entChar` run terminated by `;`) is left intact, since bleach
preserves recognized character references (for example `&shy;` passes
through `bleach.clean` unchanged) — simplified in that any well-formed
reference is treated as recognized; any other `&` becomes `&amp;`.  Each
step consumes at least one input character, so any `fuel ≥ l.length`
gives the same result. -/
def escapeTextAux : Nat → List Char → List Char
  | 0, l => l
  | _, [] => []
  | fuel + 1, c :: rest =>
    if c = '&' then
      let name := rest.takeWhile (fun x => entChar x)
      if name ≠ [] ∧ (rest.drop name.length).head? = some ';' then
        '&' :: (name ++ ';' :: escapeTextAux fuel (rest.drop (name.length + 1)))
      else
        "&amp;".toList ++ escapeTextAux fuel rest
    else if c = '<' then "&lt;".toList ++ escapeTextAux fuel rest
    else if c = '>' then "&gt;".toList ++ escapeTextAux fuel rest
    else c :: escapeTextAux fuel rest

/-- Serializer escaping for a whole text run. -/
def escapeText (l : List Char) : List Char := escapeTextAux l.length l

/-- Serializer escaping inside a double-quoted attribute value. -/
def escapeAttrChar (c : Char) : List Char :=
  if c = '&' then "&amp;".toList
  else if c = '<' then "&lt;".toList
  else if c = '>' then "&gt;".toList
  else if c = quoteChar then "&quot;".toList
  else [c]

/-- Serialize one attribute as ` name="value"`. -/
def serializeAttr (a : List Char × List Char) : List Char :=
  [' '] ++ a.1 ++ ['=', quoteChar] ++ a.2.flatMap escapeAttrChar ++ [quoteChar]

/-- Serialize one token back to markup. -/
def serializeTok : Tok → List Char
  | .text cs => escapeText cs
  | .tag true name _ => ['<', '/'] ++ name ++ ['>']
  | .tag false name attrs => ['<'] ++ name ++ (attrs.flatMap serializeAttr) ++ ['>']

/-- Model of `bleach.clean(value, tags=allowed_tags, attributes=allowed_attrs,
strip=True)`: tokenize, filter against the allow-lists, serialize. -/
def bleach_clean (value : List Char) : List Char :=
  ((sanitizeToks (tokenize value)).map serializeTok).flatten

/-- One iteration of the content loop of `format_entry`: an HTML-family
block is cleaned and has newlines and `<li>`/`</li>` rewritten, a plain
text block is HTML-escaped, any other block contributes nothing; each
contributing block is followed by a newline. -/
def formatBlock (b : ContentBlock) : List Char :=
  if b.type = "text/html" ∨ b.type = "application/xhtml+xml" then
    let cleaned := bleach_clean b.value.toList
    let cleaned := pyReplace ['\n'] [' '] cleaned
    let cleaned := pyReplace "<li>".toList "\n• ".toList cleaned
    let cleaned := pyReplace "</li>".toList [] cleaned
    cleaned ++ ['\n']
  else if b.type = "text/plain" then
    htmlEscape b.value.toList ++ ['\n']
  else
    []

/-- The `content` accumulator of `format_entry` after the loop over
`entry.content`. -/
def contentOf (blocks : List ContentBlock) : List Char :=
  (blocks.map formatBlock).flatten

/-- The `content` value of `format_entry` after the final soft-hyphen
replacements `content.replace("­", "").replace("&shy;", "")`. -/
def strippedContentOf (blocks : List ContentBlock) : List Char :=
  pyReplace "&shy;".toList [] (pyReplace [softHyphen] [] (contentOf blocks))

/-- Python `format_entry`: escape the title, build the content from the blocks,
strip soft hyphens from the content, and assemble
`<a href="{link}"><b>{title}</b></a>\n{content}` (the link interpolated
as-is). -/
def format_entry (e : Entry) : List Char :=
  "<a href=\"".toList ++ e.link.toList ++ "\"><b>".toList
    ++ htmlEscape e.title.toList ++ "</b></a>\n".toList
    ++ strippedContentOf e.content

/-! ## Further derived definitions used in the statements -/

/-- Substring test on character lists (Python's `in` on strings). -/
def containsSub (pat : List Char) : List Char → Bool
  | [] => pat.isPrefixOf []
  | c :: rest => pat.isPrefixOf (c :: rest) || containsSub pat rest

/-- The character sequence of the named soft-hyphen reference `&shy;`. -/
def shyRef : List Char := "&shy;".toList

/-- Invariant of character lists in which `&shy;` as a pattern never
matches: every occurrence of `&` is immediately followed by a character
other than `s`. -/
def asCheck : List Char → Bool
  | [] => true
  | c :: rest =>
    (if c = '&' then
      match rest with
      | [] => false
      | c2 :: _ => !(c2 == 's')
    else true) && asCheck rest

/-- Invariant of character lists out of which a single left-to-right
removal pass of `&shy;` cannot splice a new `&shy;`: every occurrence of
`&` starts a complete character reference, i.e. is immediately followed by
a nonempty run of `entChar`s and then a `;`. -/
def ampOK (l : List Char) : Prop :=
  ∀ u v, l = u ++ '&' :: v →
    ∃ R t, v = R ++ ';' :: t ∧ R ≠ [] ∧ ∀ c ∈ R, entChar c = true

/-- The entry list a fetch yields when given the headers stored in `d`. -/
def fetchedOf (fetch : Fetch) (d : StateDoc) : List Entry :=
  (fetch (headersOfDoc d).1 (headersOfDoc d).2).1

/-- The unseen entries a resolver run on document `d` returns. -/
def newOf (fetch : Fetch) (d : StateDoc) : List Entry :=
  (fetchedOf fetch d).filter (fun entry => entry.id ∉ seenOfFile (.ok d))

/-- The state document a resolver run on document `d` leaves on disk. -/
def docAfter (fetch : Fetch) (d : StateDoc) : StateDoc :=
  let fr := fetch (headersOfDoc d).1 (headersOfDoc d).2
  let ft := d.feed.getD ⟨none, none⟩
  let ft := if truthy fr.2.1 then { ft with etag := fr.2.1 } else ft
  let ft := if truthy fr.2.2 then { ft with modified := fr.2.2 } else ft
  { feed := some ft,
    entries_seen := some (d.entries_seen.getD [] ++ (newOf fetch d).map (·.id)) }

/-- A store write operation as issued by the resolver. -/
inductive StoreOp
  | saveHeaders (etag modified : Option String)
  | saveIds (ids : List String)

/-- Apply one store write to the on-disk file: on an error the write
raises before anything reaches the file, so the file is unchanged. -/
def applyOp (op : StoreOp) (st : StateFile) : StateFile :=
  match op with
  | .saveHeaders e m =>
    match save_feed_headers e m st with
    | .ok st' => st'
    | .error _ => st
  | .saveIds ids =>
    match save_entry_ids ids st with
    | .ok st' => st'
    | .error _ => st

/-- Apply a sequence of store writes. -/
def applyOps (ops : List StoreOp) (st : StateFile) : StateFile :=
  ops.foldl (fun s op => applyOp op s) st

/-- The `entries_seen = [...]` line as tomlkit renders the top-level
array. -/
def renderEntriesSeen (es : List String) : String :=
  "entries_seen = [" ++ String.intercalate ", " (es.map (fun s => "\"" ++ s ++ "\"")) ++ "]"

/-- The lines of the state file as tomlkit dumps a document produced by
the store operations: the top-level `entries_seen` key is rendered before
the `[feed]` table header (tomlkit inserts non-table top-level values
before the first table so that they stay top-level keys in the rendered
TOML); `etag` and `modified` are rendered inside the `[feed]` section. -/
def renderDoc (d : StateDoc) : List String :=
  (match d.entries_seen with
   | none => []
   | some es => [renderEntriesSeen es]) ++
  (match d.feed with
   | none => []
   | some ft =>
     ["[feed]"] ++
     (match ft.etag with
      | none => []
      | some s => ["etag = \"" ++ s ++ "\""]) ++
     (match ft.modified with
      | none => []
      | some s => ["modified = \"" ++ s ++ "\""]))

/-! ## Basic lemmas about the store operations -/

theorem get_feed_headers_ok (d : StateDoc) :
    get_feed_headers (.ok d) = .ok (headersOfDoc d) := by
  cases hd : d.feed <;> simp [get_feed_headers, headersOfDoc, hd]

theorem get_unseen_entries_ok (fetch : Fetch) (d : StateDoc) :
    get_unseen_entries fetch (.ok d) =
      (.ok (newOf fetch d), .ok (docAfter fetch d)) := by
  obtain ⟨f, es⟩ := d
  cases f <;>
    simp [get_unseen_entries, create_state_file, get_feed_headers,
      save_feed_headers, get_seen_entry_ids, save_entry_ids,
      newOf, docAfter, fetchedOf, headersOfDoc, seenOfFile]

theorem get_unseen_entries_missing (fetch : Fetch) :
    get_unseen_entries fetch .missing = get_unseen_entries fetch (.ok emptyDoc) := rfl

theorem seenOfFile_docAfter (fetch : Fetch) (d : StateDoc) :
    seenOfFile (.ok (docAfter fetch d)) =
      seenOfFile (.ok d) ∪ ((newOf fetch d).map Entry.id).toFinset := by
  simp [seenOfFile, docAfter]

theorem not_seen_of_mem_newOf (fetch : Fetch) (d : StateDoc) {e : Entry}
    (he : e ∈ newOf fetch d) : e.id ∉ seenOfFile (.ok d) := by
  have := List.of_mem_filter he
  simpa using this

theorem runCycles_cons_ok (f : Fetch) (fs : List Fetch) (d : StateDoc) :
    runCycles (f :: fs) (.ok d) =
      (newOf f d :: (runCycles fs (.ok (docAfter f d))).1,
       (runCycles fs (.ok (docAfter f d))).2) := by
  simp [runCycles, get_unseen_entries_ok]

theorem runCycles_cons_missing (f : Fetch) (fs : List Fetch) :
    runCycles (f :: fs) .missing =
      (newOf f emptyDoc :: (runCycles fs (.ok (docAfter f emptyDoc))).1,
       (runCycles fs (.ok (docAfter f emptyDoc))).2) := by
  rw [runCycles, get_unseen_entries_missing, get_unseen_entries_ok]

theorem runCycles_cons_corrupt (f : Fetch) (fs : List Fetch) :
    runCycles (f :: fs) .corrupt =
      ([] :: (runCycles fs .corrupt).1, (runCycles fs .corrupt).2) := rfl

/-- Once an id is in the stored seen set, no later poll cycle ever returns
an entry with that id, and the id stays in the stored set. -/
theorem seen_not_returned (fs : List Fetch) (st : StateFile) (x : String)
    (hx : x ∈ seenOfFile st) :
    (∀ out ∈ (runCycles fs st).1, x ∉ out.map Entry.id) ∧
      x ∈ seenOfFile (runCycles fs st).2 := by
  induction fs generalizing st with
  | nil => exact ⟨by simp [runCycles], by simpa [runCycles] using hx⟩
  | cons f fs ih =>
    cases st with
    | missing => simp [seenOfFile] at hx
    | corrupt => simp [seenOfFile] at hx
    | ok d =>
      rw [runCycles_cons_ok]
      have hx' : x ∈ seenOfFile (.ok (docAfter f d)) := by
        rw [seenOfFile_docAfter]; exact Finset.mem_union_left _ hx
      obtain ⟨h1, h2⟩ := ih (.ok (docAfter f d)) hx'
      refine ⟨?_, h2⟩
      intro out hout
      rcases List.mem_cons.mp hout with h | h
      · subst h
        intro hmem
        rcases List.mem_map.mp hmem with ⟨e, he, heq⟩
        exact not_seen_of_mem_newOf f d he (heq ▸ hx)
      · exact h1 out h

/-- Under unique ids within each fetched feed, the entry ids returned
across any sequence of poll cycles contain no duplicate. -/
theorem runCycles_nodup (fs : List Fetch) (st : StateFile)
    (hf : ∀ f ∈ fs, ∀ a b, ((f a b).1.map Entry.id).Nodup) :
    ((runCycles fs st).1.flatMap (·.map Entry.id)).Nodup := by
  induction fs generalizing st with
  | nil => simp [runCycles]
  | cons f fs ih =>
    have hf' : ∀ g ∈ fs, ∀ a b, ((g a b).1.map Entry.id).Nodup :=
      fun g hg => hf g (List.mem_cons_of_mem _ hg)
    have hok : ∀ d : StateDoc,
        ((runCycles (f :: fs) (.ok d)).1.flatMap (·.map Entry.id)).Nodup := by
      intro d
      rw [runCycles_cons_ok]
      simp only [List.flatMap_cons]
      rw [List.nodup_append]
      refine ⟨?_, ih _ hf', ?_⟩
      · have hsub : List.Sublist ((newOf f d).map Entry.id) ((fetchedOf f d).map Entry.id) :=
          (List.filter_sublist _).map _
        exact (hf f (List.mem_cons_self _ _) _ _).sublist hsub
      · intro x hx hmem
        have hx' : x ∈ seenOfFile (.ok (docAfter f d)) := by
          rw [seenOfFile_docAfter]
          exact Finset.mem_union_right _ (List.mem_toFinset.mpr hx)
        rcases List.mem_flatMap.mp hmem with ⟨out, hout, hxo⟩
        exact (seen_not_returned fs _ x hx').1 out hout hxo
    cases st with
    | missing => rw [runCycles_cons_missing, ← runCycles_cons_ok]; exact hok emptyDoc
    | corrupt =>
      rw [runCycles_cons_corrupt]
      simpa using ih .corrupt hf'
    | ok d => exact hok d

/-! ## The claims -/

/-- C6: writing conditional-fetch tokens leaves the stored seen-id set
unchanged, appending seen ids leaves the stored `etag`/`modified` values
unchanged, and re-reading both after writing tokens then ids returns both
pieces intact (the headers as `save_feed_headers` left them, the seen set
extended by exactly the appended ids). -/
theorem C6_store_update_isolation (d : StateDoc) (etag modified : Option String)
    (ids : List String) (st1 st2 : StateFile)
    (h1 : save_feed_headers etag modified (.ok d) = .ok st1)
    (h2 : save_entry_ids ids st1 = .ok st2) :
    get_seen_entry_ids st1 = get_seen_entry_ids (.ok d) ∧
    get_feed_headers st2 = get_feed_headers st1 ∧
    get_seen_entry_ids st2 = .ok ((d.entries_seen.getD [] ++ ids).toFinset) := by
  simp only [save_feed_headers, Except.ok.injEq] at h1
  subst h1
  simp only [save_entry_ids, Except.ok.injEq] at h2
  subst h2
  exact ⟨rfl, rfl, rfl⟩

theorem C6_store_update_isolation_witness :
    save_feed_headers (some "E") (some "M") (.ok ⟨none, some ["a"]⟩) =
      .ok (.ok ⟨some ⟨some "E", some "M"⟩, some ["a"]⟩) ∧
    save_entry_ids ["b"] (.ok ⟨some ⟨some "E", some "M"⟩, some ["a"]⟩) =
      .ok (.ok ⟨some ⟨some "E", some "M"⟩, some ["a", "b"]⟩) ∧
    (get_seen_entry_ids (.ok ⟨some ⟨some "E", some "M"⟩, some ["a"]⟩) =
        get_seen_entry_ids (.ok (⟨none, some ["a"]⟩ : StateDoc)) ∧
      get_feed_headers (.ok ⟨some ⟨some "E", some "M"⟩, some ["a", "b"]⟩) =
        get_feed_headers (.ok ⟨some ⟨some "E", some "M"⟩, some ["a"]⟩) ∧
      get_seen_entry_ids (.ok ⟨some ⟨some "E", some "M"⟩, some ["a", "b"]⟩) =
        .ok ((["a"] ++ ["b"]).toFinset)) :=
  ⟨by rfl, by rfl,
    C6_store_update_isolation ⟨none, some ["a"]⟩ (some "E") (some "M") ["b"]
      _ _ (by rfl) (by rfl)⟩

/-- C7: appending an id that is already in the stored seen-id set leaves
the set returned by `get_seen_entry_ids` unchanged (the underlying array
gains a duplicate element, but the read, which takes the set of the array,
is unchanged). -/
theorem C7_append_seen_id_idempotent (st : StateFile) (x : String)
    (hx : x ∈ seenOfFile st) (st' : StateFile)
    (h : save_entry_ids [x] st = .ok st') :
    get_seen_entry_ids st' = get_seen_entry_ids st := by
  cases st with
  | missing => simp [seenOfFile] at hx
  | corrupt => simp [seenOfFile] at hx
  | ok d =>
    simp only [save_entry_ids, Except.ok.injEq] at h
    subst h
    simp only [get_seen_entry_ids, Option.getD_some, Except.ok.injEq]
    have hx' : x ∈ (d.entries_seen.getD []).toFinset := by
      simpa [seenOfFile] using hx
    rw [List.toFinset_append]
    refine Finset.union_eq_left.mpr ?_
    intro y hy
    simp only [List.toFinset_cons, List.toFinset_nil, insert_emptyc_eq,
      Finset.mem_singleton] at hy
    exact hy ▸ hx'

theorem C7_append_seen_id_idempotent_witness :
    "a" ∈ seenOfFile (.ok ⟨none, some ["a", "b"]⟩) ∧
    save_entry_ids ["a"] (.ok ⟨none, some ["a", "b"]⟩) =
      .ok (.ok ⟨none, some ["a", "b", "a"]⟩) ∧
    get_seen_entry_ids (.ok ⟨none, some ["a", "b", "a"]⟩) =
      get_seen_entry_ids (.ok (⟨none, some ["a", "b"]⟩ : StateDoc)) :=
  ⟨by decide, by rfl,
    C7_append_seen_id_idempotent (.ok ⟨none, some ["a", "b"]⟩) "a" (by decide)
      _ (by rfl)⟩

/-- C8: a missing state file is not an error: the header read returns both
fields unset, the seen-id read returns the empty set, and a full resolver
run succeeds, leaves a created (parsed) store on disk, and returns every
fetched entry as unseen. -/
theorem C8_missing_store_bootstrap (fetch : Fetch) :
    get_feed_headers .missing = .ok (none, none) ∧
    get_seen_entry_ids .missing = .ok ∅ ∧
    ∃ d' : StateDoc,
      get_unseen_entries fetch .missing = (.ok (fetch none none).1, .ok d') := by
  refine ⟨rfl, rfl, docAfter fetch emptyDoc, ?_⟩
  rw [get_unseen_entries_missing, get_unseen_entries_ok]
  have : newOf fetch emptyDoc = (fetch none none).1 := by
    simp [newOf, fetchedOf, headersOfDoc, emptyDoc, seenOfFile]
  rw [this]

/-- C9: on an unparseable state file the resolver surfaces the parse error
(raised in `get_feed_headers`, where only `FileNotFoundError` and
`KeyError` are caught), returns no entries, and leaves the file exactly as
it was: the error is raised before any of the two save functions is
reached, and `create_state_file` only appends an empty string. -/
theorem C9_corrupt_store_aborts_without_mutation (fetch : Fetch) :
    get_unseen_entries fetch .corrupt = (.error .parseError, .corrupt) ∧
    get_feed_headers .corrupt = .error .parseError ∧
    create_state_file .corrupt = .corrupt :=
  ⟨rfl, rfl, rfl⟩

/-- C1: on any prior state document, one resolver run returns exactly the
fetched entries whose id is absent from the stored seen-id set, in fetch
order (the returned list is a `List.filter` of the fetched list), and
persists those entries' ids by appending them to the stored seen-id array
before returning; consequently, across the first cycle and any sequence of
further poll cycles over feeds with unique entry ids, no entry id is ever
returned twice. -/
theorem C1_resolver_filters_and_never_repeats (fetch : Fetch) (d : StateDoc)
    (cross : List Fetch)
    (hnd : ∀ f ∈ fetch :: cross, ∀ a b, ((f a b).1.map Entry.id).Nodup) :
    get_unseen_entries fetch (.ok d) =
      (.ok ((fetchedOf fetch d).filter (fun e => e.id ∉ seenOfFile (.ok d))),
       .ok (docAfter fetch d)) ∧
    (docAfter fetch d).entries_seen =
      some (d.entries_seen.getD [] ++ (newOf fetch d).map Entry.id) ∧
    seenOfFile (.ok (docAfter fetch d)) =
      seenOfFile (.ok d) ∪ ((newOf fetch d).map Entry.id).toFinset ∧
    ((runCycles (fetch :: cross) (.ok d)).1.flatMap (·.map Entry.id)).Nodup :=
  ⟨get_unseen_entries_ok fetch d, rfl, seenOfFile_docAfter fetch d,
    runCycles_nodup _ _ hnd⟩

/-- A concrete two-cycle fetch for the C1 witness: the feed holds entries
`a` and `b` both times. -/
def w1fetch : Fetch :=
  fun _ _ => ([⟨"a", "t", "l", []⟩, ⟨"b", "t", "l", []⟩], some "E", none)

theorem C1_resolver_filters_and_never_repeats_witness :
    (∀ f ∈ w1fetch :: [w1fetch], ∀ a b, ((f a b).1.map Entry.id).Nodup) ∧
    (get_unseen_entries w1fetch (.ok emptyDoc) =
      (.ok ((fetchedOf w1fetch emptyDoc).filter
          (fun e => e.id ∉ seenOfFile (.ok emptyDoc))),
       .ok (docAfter w1fetch emptyDoc)) ∧
    (docAfter w1fetch emptyDoc).entries_seen =
      some (emptyDoc.entries_seen.getD [] ++ (newOf w1fetch emptyDoc).map Entry.id) ∧
    seenOfFile (.ok (docAfter w1fetch emptyDoc)) =
      seenOfFile (.ok emptyDoc) ∪ ((newOf w1fetch emptyDoc).map Entry.id).toFinset ∧
    ((runCycles (w1fetch :: [w1fetch]) (.ok emptyDoc)).1.flatMap
        (·.map Entry.id)).Nodup) := by
  have hnd : ∀ f ∈ w1fetch :: [w1fetch], ∀ a b, ((f a b).1.map Entry.id).Nodup := by
    intro f hf a b
    rcases List.mem_cons.mp hf with h | h
    · subst h; simp only [w1fetch]; decide
    · rcases List.mem_cons.mp h with h2 | h2
      · subst h2; simp only [w1fetch]; decide
      · simp at h2
  exact ⟨hnd, C1_resolver_filters_and_never_repeats w1fetch emptyDoc [w1fetch] hnd⟩

/-- C2: the scheduled callback delivers only `entries[-feed_max:]` of the
resolver's result, whose ids have all already been persisted as seen, so
when a cycle finds more than `feed_max` new entries every entry but the
last `feed_max` is marked seen yet is neither delivered in this cycle nor
returned (hence never delivered) by any later cycle. -/
theorem C2_feed_max_cap_silently_drops (fetch : Fetch) (d : StateDoc)
    (m : Nat) (hm : 1 ≤ m) (new : List Entry) (st' : StateFile)
    (hrun : get_unseen_entries fetch (.ok d) = (.ok new, st'))
    (hnd : (new.map Entry.id).Nodup) (hlen : m < new.length) :
    fetch_feed_callback fetch m (.ok d) = (.ok (pyLastSlice m new), st') ∧
    (pyLastSlice m new).length = m ∧
    ∀ e ∈ new.take (new.length - m),
      e.id ∈ seenOfFile st' ∧
      e.id ∉ (pyLastSlice m new).map Entry.id ∧
      ∀ fs : List Fetch, ∀ out ∈ (runCycles fs st').1, e.id ∉ out.map Entry.id := by
  have hm0 : m ≠ 0 := by omega
  refine ⟨?_, ?_, ?_⟩
  · unfold fetch_feed_callback
    rw [hrun]
  · rw [pyLastSlice, if_neg hm0]
    simp only [List.length_drop]
    omega
  · rw [get_unseen_entries_ok] at hrun
    have hnew : newOf fetch d = new := by
      have := congrArg Prod.fst hrun
      simpa using this
    have hst : st' = .ok (docAfter fetch d) := by
      have := congrArg Prod.snd hrun
      simpa using this.symm
    intro e he
    have hemem : e ∈ new := List.take_subset _ _ he
    have hidmem : e.id ∈ (newOf fetch d).map Entry.id := by
      rw [hnew]; exact List.mem_map_of_mem _ hemem
    have hseen : e.id ∈ seenOfFile st' := by
      rw [hst, seenOfFile_docAfter]
      exact Finset.mem_union_right _ (List.mem_toFinset.mpr hidmem)
    refine ⟨hseen, ?_, ?_⟩
    · rw [pyLastSlice, if_neg hm0]
      have hsplit : new.map Entry.id =
          (new.take (new.length - m)).map Entry.id ++
            (new.drop (new.length - m)).map Entry.id := by
        rw [← List.map_append, List.take_append_drop]
      rw [hsplit] at hnd
      rcases List.nodup_append.mp hnd with ⟨_, _, hdisj⟩
      exact fun hc => hdisj (List.mem_map_of_mem _ he) hc
    · intro fs out hout
      exact (seen_not_returned fs st' e.id hseen).1 out hout

/-- A concrete fetch for the C2 witness: a cycle that finds two new
entries while `feed_max = 1`. -/
def w2fetch : Fetch :=
  fun _ _ => ([⟨"a", "t", "l", []⟩, ⟨"b", "t", "l", []⟩], none, none)

theorem C2_feed_max_cap_silently_drops_witness :
    1 ≤ 1 ∧
    get_unseen_entries w2fetch (.ok emptyDoc) =
      (.ok [⟨"a", "t", "l", []⟩, ⟨"b", "t", "l", []⟩],
       .ok ⟨some ⟨none, none⟩, some ["a", "b"]⟩) ∧
    (([⟨"a", "t", "l", []⟩, ⟨"b", "t", "l", []⟩] : List Entry).map Entry.id).Nodup ∧
    1 < ([⟨"a", "t", "l", []⟩, ⟨"b", "t", "l", []⟩] : List Entry).length ∧
    (fetch_feed_callback w2fetch 1 (.ok emptyDoc) =
      (.ok (pyLastSlice 1 [⟨"a", "t", "l", []⟩, ⟨"b", "t", "l", []⟩]),
       .ok ⟨some ⟨none, none⟩, some ["a", "b"]⟩) ∧
    (pyLastSlice 1 ([⟨"a", "t", "l", []⟩, ⟨"b", "t", "l", []⟩] : List Entry)).length = 1 ∧
    ∀ e ∈ ([⟨"a", "t", "l", []⟩, ⟨"b", "t", "l", []⟩] : List Entry).take
        (([⟨"a", "t", "l", []⟩, ⟨"b", "t", "l", []⟩] : List Entry).length - 1),
      e.id ∈ seenOfFile (.ok ⟨some ⟨none, none⟩, some ["a", "b"]⟩) ∧
      e.id ∉ (pyLastSlice 1 [⟨"a", "t", "l", []⟩, ⟨"b", "t", "l", []⟩]).map Entry.id ∧
      ∀ fs : List Fetch,
        ∀ out ∈ (runCycles fs (.ok ⟨some ⟨none, none⟩, some ["a", "b"]⟩)).1,
          e.id ∉ out.map Entry.id) :=
  ⟨le_refl 1, rfl, by decide, by decide,
    C2_feed_max_cap_silently_drops w2fetch emptyDoc 1 (le_refl 1)
      [⟨"a", "t", "l", []⟩, ⟨"b", "t", "l", []⟩]
      (.ok ⟨some ⟨none, none⟩, some ["a", "b"]⟩) rfl (by decide) (by decide)⟩

/-- C5 fails: write tokens, then ids, from an empty store.  The resulting
document renders with the `entries_seen` key *before* the `[feed]` table
header, i.e. as a top-level key outside the `[feed]` table (and
`get_seen_entry_ids` indeed reads it back from the document's top level),
contradicting the claimed layout with all three keys inside `[feed]`. -/
theorem C5_counterexample_entries_seen_outside_feed :
    applyOps [.saveHeaders (some "E") (some "M"), .saveIds ["a"]] (.ok emptyDoc) =
      .ok ⟨some ⟨some "E", some "M"⟩, some ["a"]⟩ ∧
    renderDoc ⟨some ⟨some "E", some "M"⟩, some ["a"]⟩ =
      ["entries_seen = [\"a\"]", "[feed]", "etag = \"E\"", "modified = \"M\""] ∧
    get_seen_entry_ids (.ok ⟨some ⟨some "E", some "M"⟩, some ["a"]⟩) =
      .ok (seenOfFile (.ok ⟨some ⟨some "E", some "M"⟩, some ["a"]⟩)) ∧
    seenOfFile (.ok ⟨some ⟨some "E", some "M"⟩, some ["a"]⟩) = {"a"} :=
  ⟨by decide, by decide, rfl, by decide⟩

/-- C5 amended: every write keeps `etag` and `modified` inside the `[feed]`
table, while `entries_seen` is persisted as a top-level key rendered
before the `[feed]` header (a sibling of the table, which is what
`get_seen_entry_ids` reads back), not inside `[feed]`. -/
theorem C5_amended_entries_seen_is_top_level (d : StateDoc) (e m : String)
    (ids : List String) (he : e ≠ "") (hm : m ≠ "") :
    applyOps [.saveHeaders (some e) (some m), .saveIds ids] (.ok d) =
      .ok ⟨some ⟨some e, some m⟩, some (d.entries_seen.getD [] ++ ids)⟩ ∧
    renderDoc ⟨some ⟨some e, some m⟩, some (d.entries_seen.getD [] ++ ids)⟩ =
      [renderEntriesSeen (d.entries_seen.getD [] ++ ids), "[feed]",
       "etag = \"" ++ e ++ "\"", "modified = \"" ++ m ++ "\""] := by
  have he' : (e == "") = false := beq_eq_false_iff_ne.mpr he
  have hm' : (m == "") = false := beq_eq_false_iff_ne.mpr hm
  constructor
  · simp [applyOps, applyOp, save_feed_headers, save_entry_ids, truthy, he', hm']
  · rfl

theorem C5_amended_entries_seen_is_top_level_witness :
    "E" ≠ "" ∧ "M" ≠ "" ∧
    (applyOps [.saveHeaders (some "E") (some "M"), .saveIds ["a"]] (.ok emptyDoc) =
      .ok ⟨some ⟨some "E", some "M"⟩, some (emptyDoc.entries_seen.getD [] ++ ["a"])⟩ ∧
    renderDoc ⟨some ⟨some "E", some "M"⟩, some (emptyDoc.entries_seen.getD [] ++ ["a"])⟩ =
      [renderEntriesSeen (emptyDoc.entries_seen.getD [] ++ ["a"]), "[feed]",
       "etag = \"" ++ "E" ++ "\"", "modified = \"" ++ "M" ++ "\""]) :=
  ⟨by decide, by decide,
    C5_amended_entries_seen_is_top_level emptyDoc "E" "M" ["a"] (by decide) (by decide)⟩

/-! ## Lemmas about the replacement and escaping functions -/

theorem mem_of_mem_pyReplaceAux_empty (old : List Char) (x : Char) :
    ∀ (fuel : Nat) (l : List Char), x ∈ pyReplaceAux old [] fuel l → x ∈ l := by
  intro fuel
  induction fuel with
  | zero => intro l h; simpa [pyReplaceAux] using h
  | succ fuel ih =>
    intro l h
    cases l with
    | nil => simp [pyReplaceAux] at h
    | cons c rest =>
      rw [pyReplaceAux] at h
      by_cases hc : old.isPrefixOf (c :: rest) ∧ old ≠ []
      · rw [if_pos hc] at h
        simp only [List.nil_append] at h
        have := ih _ h
        exact List.mem_cons_of_mem _ (List.drop_subset _ _ this)
      · rw [if_neg hc] at h
        rcases List.mem_cons.mp h with h1 | h1
        · exact h1 ▸ List.mem_cons_self _ _
        · exact List.mem_cons_of_mem _ (ih _ h1)

/-- Replacing a pattern by the empty string never introduces characters:
every character of the output was in the input. -/
theorem mem_of_mem_pyReplace_empty (old : List Char) (x : Char) (l : List Char)
    (h : x ∈ pyReplace old [] l) : x ∈ l :=
  mem_of_mem_pyReplaceAux_empty old x l.length l h

theorem not_mem_pyReplaceAux_single (a : Char) :
    ∀ (fuel : Nat) (l : List Char), l.length ≤ fuel → a ∉ pyReplaceAux [a] [] fuel l := by
  intro fuel
  induction fuel with
  | zero =>
    intro l hl
    have : l = [] := List.eq_nil_of_length_eq_zero (Nat.le_zero.mp hl)
    subst this
    simp [pyReplaceAux]
  | succ fuel ih =>
    intro l hl
    cases l with
    | nil => simp [pyReplaceAux]
    | cons c rest =>
      rw [pyReplaceAux]
      simp only [List.length_cons, Nat.succ_le_succ_iff] at hl
      by_cases hc : [a].isPrefixOf (c :: rest) ∧ ([a] : List Char) ≠ []
      · rw [if_pos hc]
        simp only [List.nil_append, List.length_singleton]
        simpa using ih (rest.drop 0) (by simpa using hl)
      · rw [if_neg hc]
        have hca : c ≠ a := by
          intro h
          exact hc ⟨by simp [List.isPrefixOf, h], by simp⟩
        intro hmem
        rcases List.mem_cons.mp hmem with h1 | h1
        · exact hca h1.symm
        · exact ih rest hl h1

/-- Replacing all occurrences of a single character by the empty string
removes that character entirely. -/
theorem not_mem_pyReplace_single (a : Char) (l : List Char) :
    a ∉ pyReplace [a] [] l :=
  not_mem_pyReplaceAux_single a l.length l (Nat.le_refl _)

/-- The content part of a formatted entry contains no raw soft hyphen. -/
theorem softHyphen_not_mem_strippedContentOf (blocks : List ContentBlock) :
    softHyphen ∉ strippedContentOf blocks := by
  intro h
  have h1 : softHyphen ∈ pyReplace [softHyphen] [] (contentOf blocks) :=
    mem_of_mem_pyReplace_empty _ _ _ h
  exact not_mem_pyReplace_single _ _ h1

theorem pyReplaceAux_fuel_irrel (old new : List Char) :
    ∀ (f1 : Nat), ∀ {f2 : Nat} {l : List Char}, l.length ≤ f1 → l.length ≤ f2 →
      pyReplaceAux old new f1 l = pyReplaceAux old new f2 l := by
  intro f1
  induction f1 with
  | zero =>
    intro f2 l h1 _
    have : l = [] := List.eq_nil_of_length_eq_zero (Nat.le_zero.mp h1)
    subst this
    cases f2 <;> rfl
  | succ f1 ih =>
    intro f2 l h1 h2
    cases l with
    | nil => cases f2 <;> rfl
    | cons c rest =>
      cases f2 with
      | zero => simp at h2
      | succ f2 =>
        rw [pyReplaceAux, pyReplaceAux]
        simp only [List.length_cons, Nat.succ_le_succ_iff] at h1 h2
        by_cases hc : old.isPrefixOf (c :: rest) ∧ old ≠ []
        · rw [if_pos hc, if_pos hc]
          have hlen : (rest.drop (old.length - 1)).length ≤ rest.length := by
            simp [List.length_drop]
          rw [ih (Nat.le_trans hlen h1) (Nat.le_trans hlen h2)]
        · rw [if_neg hc, if_neg hc, ih h1 h2]

theorem pyReplace_cons_neg {old new : List Char} {c : Char} {rest : List Char}
    (h : ¬(old.isPrefixOf (c :: rest) ∧ old ≠ [])) :
    pyReplace old new (c :: rest) = c :: pyReplace old new rest := by
  rw [pyReplace, pyReplace]
  show pyReplaceAux old new (rest.length + 1) (c :: rest) = _
  rw [pyReplaceAux, if_neg h]

theorem pyReplace_cons_pos {old new : List Char} {c : Char} {rest : List Char}
    (h : old.isPrefixOf (c :: rest) ∧ old ≠ []) :
    pyReplace old new (c :: rest) =
      new ++ pyReplace old new (rest.drop (old.length - 1)) := by
  rw [pyReplace, pyReplace]
  show pyReplaceAux old new (rest.length + 1) (c :: rest) = _
  rw [pyReplaceAux, if_pos h]
  congr 1
  exact pyReplaceAux_fuel_irrel old new rest.length (by simp [List.length_drop])
    (Nat.le_refl _)

theorem append_split_of_not_mem {a : Char} :
    ∀ {w z u v : List Char}, a ∉ w → w ++ z = u ++ a :: v →
      ∃ w2, u = w ++ w2 ∧ z = w2 ++ a :: v := by
  intro w
  induction w with
  | nil =>
    intro z u v _ h
    exact ⟨u, by simp, h⟩
  | cons b w ih =>
    intro z u v ha h
    cases u with
    | nil =>
      rw [List.nil_append, List.cons_append] at h
      injection h with h1 h2
      apply absurd _ ha
      rw [h1]
      exact List.mem_cons_self a w
    | cons u0 u1 =>
      simp only [List.cons_append, List.cons.injEq] at h
      obtain ⟨w2, hw1, hw2⟩ := ih (fun hm => ha (List.mem_cons_of_mem _ hm)) h.2
      exact ⟨w2, by rw [h.1, hw1, List.cons_append], hw2⟩

theorem pyReplace_append_not_head {p : Char} {pr rep : List Char} :
    ∀ {w z : List Char}, p ∉ w →
      pyReplace (p :: pr) rep (w ++ z) = w ++ pyReplace (p :: pr) rep z := by
  intro w
  induction w with
  | nil => intro z _; simp
  | cons a w ih =>
    intro z ha
    have hpa : p ≠ a := fun h => ha (h ▸ List.mem_cons_self a w)
    rw [List.cons_append, pyReplace_cons_neg (by
        rintro ⟨h1, _⟩
        rw [List.isPrefixOf] at h1
        simp only [Bool.and_eq_true, beq_iff_eq] at h1
        exact hpa h1.1),
      ih (fun hm => ha (List.mem_cons_of_mem _ hm))]
    simp

theorem entChar_ne_amp {c : Char} (h : entChar c = true) : c ≠ '&' := by
  intro he
  subst he
  exact absurd h (by decide)

theorem entChar_ne_semi {c : Char} (h : entChar c = true) : c ≠ ';' := by
  intro he
  subst he
  exact absurd h (by decide)

theorem ampOK_nil : ampOK [] := by
  intro u v h
  exact absurd h (by simp)

theorem ampOK_of_not_mem {w : List Char} (hw : '&' ∉ w) : ampOK w := by
  intro u v h
  exact absurd (h ▸ List.mem_append_right u (List.mem_cons_self _ _)) hw

theorem ampOK_append {u v : List Char} (hu : ampOK u) (hv : ampOK v) :
    ampOK (u ++ v) := by
  intro w1 w2 h
  rcases List.append_eq_append_iff.mp h.symm with ⟨a2, ha1, ha2⟩ | ⟨c2, _, hc2⟩
  · cases a2 with
    | nil =>
      simp only [List.nil_append] at ha2
      exact hv [] w2 (by simp [ha2.symm])
    | cons e a3 =>
      injection ha2 with he ha3
      obtain ⟨R, t, ht, hR, hent⟩ := hu w1 a3 (by rw [ha1, ← he])
      exact ⟨R, t ++ v, by rw [ha3, ht]; simp, hR, hent⟩
  · exact hv c2 w2 hc2

theorem ampOK_span {R t : List Char} (hR : R ≠ [])
    (hent : ∀ c ∈ R, entChar c = true) (ht : ampOK t) :
    ampOK ('&' :: (R ++ ';' :: t)) := by
  intro u v h
  cases u with
  | nil =>
    injection h with _ h2
    exact ⟨R, t, h2.symm, hR, hent⟩
  | cons e u1 =>
    injection h with he h2
    have hnot : '&' ∉ R ++ [';'] := by
      intro hm
      rcases List.mem_append.mp hm with hm | hm
      · exact entChar_ne_amp (hent _ hm) rfl
      · simp at hm
    have h3 : (R ++ [';']) ++ t = u1 ++ '&' :: v := by
      simpa using h2
    obtain ⟨w2, _, hw2⟩ := append_split_of_not_mem hnot h3
    exact ht w2 v hw2

theorem ampOK_of_cons {c : Char} {l : List Char} (h : ampOK (c :: l)) : ampOK l := by
  intro u v heq
  exact h (c :: u) v (by rw [heq]; rfl)

theorem ampOK_drop {l : List Char} (h : ampOK l) (n : Nat) : ampOK (l.drop n) := by
  intro u v heq
  refine h (l.take n ++ u) v ?_
  conv_lhs => rw [← List.take_append_drop n l, heq]
  rw [List.append_assoc]

theorem ampOK_head_span {v : List Char} (h : ampOK ('&' :: v)) :
    ∃ R t, v = R ++ ';' :: t ∧ R ≠ [] ∧ (∀ c ∈ R, entChar c = true) ∧ ampOK t := by
  obtain ⟨R, t, ht, hR, hent⟩ := h [] v rfl
  refine ⟨R, t, ht, hR, hent, ?_⟩
  intro u1 v1 heq
  exact h ('&' :: R ++ ';' :: u1) v1 (by rw [ht, heq]; simp)

theorem ampOK_flatMap {α : Type} {f : α → List Char} {l : List α}
    (hf : ∀ a ∈ l, ampOK (f a)) : ampOK (l.flatMap f) := by
  induction l with
  | nil => exact ampOK_nil
  | cons a l ih =>
    rw [List.flatMap_cons]
    exact ampOK_append (hf a (List.mem_cons_self _ _))
      (ih (fun b hb => hf b (List.mem_cons_of_mem _ hb)))

theorem shyRef_eq : shyRef = ['&', 's', 'h', 'y', ';'] := rfl

theorem not_amp_mem_span {R : List Char} (hent : ∀ c ∈ R, entChar c = true) :
    '&' ∉ R ++ [';'] := by
  intro hm
  rcases List.mem_append.mp hm with hm | hm
  · exact entChar_ne_amp (hent _ hm) rfl
  · simp at hm

/-- A `&shy;` prefix of a complete-reference span forces the reference
name to be exactly `shy`: with no `;` inside `R`, the pattern can match
`&R;...` only when `R = shy`, independently of what follows the span. -/
theorem shy_isPrefixOf_span {R x : List Char} (hsemi : ';' ∉ R)
    (h : shyRef.isPrefixOf ('&' :: (R ++ ';' :: x)) = true) : R = ['s', 'h', 'y'] := by
  rw [shyRef_eq] at h
  rcases R with _ | ⟨r1, _ | ⟨r2, _ | ⟨r3, _ | ⟨r4, R5⟩⟩⟩⟩
  · simp only [List.nil_append, List.isPrefixOf, Bool.and_eq_true, beq_iff_eq] at h
    exact absurd h.2.1 (by decide)
  · simp only [List.cons_append, List.nil_append, List.isPrefixOf, Bool.and_eq_true,
      beq_iff_eq] at h
    exact absurd h.2.2.1 (by decide)
  · simp only [List.cons_append, List.nil_append, List.isPrefixOf, Bool.and_eq_true,
      beq_iff_eq] at h
    exact absurd h.2.2.2.1 (by decide)
  · simp only [List.cons_append, List.nil_append, List.isPrefixOf, Bool.and_eq_true,
      beq_iff_eq] at h
    rw [← h.2.1, ← h.2.2.1, ← h.2.2.2.1]
  · simp only [List.cons_append, List.isPrefixOf, Bool.and_eq_true, beq_iff_eq] at h
    have h4 : r4 = ';' := h.2.2.2.2.1.symm
    subst h4
    exact absurd (by simp) hsemi

/-- The key soundness fact about the single-pass `&shy;` removal: on input
whose every `&` begins a complete character reference, the output contains
no `&shy;` — a removal cannot splice one together, because each surviving
`&` is still followed by its intact reference, whose name is not `shy`. -/
theorem no_shy_pyReplace :
    ∀ (n : Nat) (l : List Char), l.length ≤ n → ampOK l →
      containsSub shyRef (pyReplace shyRef [] l) = false := by
  intro n
  induction n with
  | zero =>
    intro l hl _
    have : l = [] := List.eq_nil_of_length_eq_zero (Nat.le_zero.mp hl)
    subst this
    decide
  | succ n ih =>
    intro l hl hOK
    cases l with
    | nil => decide
    | cons c rest =>
      simp only [List.length_cons, Nat.succ_le_succ_iff] at hl
      by_cases hp : shyRef.isPrefixOf (c :: rest) = true
      · rw [pyReplace_cons_pos ⟨hp, by decide⟩]
        simp only [shyRef_eq, List.length_cons, List.nil_append]
        show containsSub shyRef (pyReplace shyRef [] (rest.drop 4)) = false
        apply ih
        · exact Nat.le_trans (by simp [List.length_drop]) hl
        · have := ampOK_drop hOK 5
          simpa using this
      · rw [pyReplace_cons_neg (fun hc => hp hc.1)]
        rw [containsSub, Bool.or_eq_false_iff]
        refine ⟨?_, ih rest hl (ampOK_of_cons hOK)⟩
        by_cases hc : c = '&'
        · subst hc
          obtain ⟨R, t, hv, hR, hent, ht⟩ := ampOK_head_span hOK
          subst hv
          have hX : pyReplace shyRef [] (R ++ ';' :: t) =
              (R ++ [';']) ++ pyReplace shyRef [] t := by
            rw [show R ++ ';' :: t = (R ++ [';']) ++ t by simp, shyRef_eq]
            exact pyReplace_append_not_head (not_amp_mem_span hent)
          rw [hX]
          by_contra hpre
          rw [Bool.not_eq_false] at hpre
          have hx2 : shyRef.isPrefixOf
              ('&' :: (R ++ ';' :: pyReplace shyRef [] t)) = true := by
            rw [show R ++ ';' :: pyReplace shyRef [] t =
              (R ++ [';']) ++ pyReplace shyRef [] t by simp]
            exact hpre
          have hRshy := shy_isPrefixOf_span
            (fun hm => entChar_ne_semi (hent _ hm) rfl) hx2
          subst hRshy
          exact hp (by simp [shyRef_eq, List.isPrefixOf])
        · rw [shyRef_eq, List.isPrefixOf,
            show ('&' == c) = false from beq_eq_false_iff_ne.mpr fun h => hc h.symm,
            Bool.false_and]
/-- Replacement of a pattern whose head is not `&`, `;`, or a reference
name character, by a replacement containing no `&`, preserves the
complete-reference invariant: no match can start inside a reference span,
so every surviving reference stays intact. -/
theorem ampOK_pyReplace {p : Char} {pr rep : List Char}
    (hp1 : entChar p = false) (hp3 : p ≠ ';')
    (hrep : '&' ∉ rep) :
    ∀ (n : Nat) (l : List Char), l.length ≤ n → ampOK l →
      ampOK (pyReplace (p :: pr) rep l) := by
  intro n
  induction n with
  | zero =>
    intro l hl _
    have : l = [] := List.eq_nil_of_length_eq_zero (Nat.le_zero.mp hl)
    subst this
    exact ampOK_nil
  | succ n ih =>
    intro l hl hOK
    cases l with
    | nil => exact ampOK_nil
    | cons c rest =>
      simp only [List.length_cons, Nat.succ_le_succ_iff] at hl
      by_cases hcond : (p :: pr).isPrefixOf (c :: rest) = true
      · rw [pyReplace_cons_pos ⟨hcond, by simp⟩]
        refine ampOK_append (ampOK_of_not_mem hrep) ?_
        apply ih
        · exact Nat.le_trans (by simp [List.length_drop]) hl
        · have := ampOK_drop hOK ((p :: pr).length - 1 + 1)
          simpa using this
      · rw [pyReplace_cons_neg (fun hc => hcond hc.1)]
        by_cases hc : c = '&'
        · subst hc
          obtain ⟨R, t, hv, hR, hent, ht⟩ := ampOK_head_span hOK
          subst hv
          have hpR : p ∉ R ++ [';'] := by
            intro hm
            rcases List.mem_append.mp hm with hm | hm
            · rw [hent _ hm] at hp1
              exact absurd hp1 (by decide)
            · simp only [List.mem_singleton] at hm
              exact hp3 hm
          have hX : pyReplace (p :: pr) rep (R ++ ';' :: t) =
              (R ++ [';']) ++ pyReplace (p :: pr) rep t := by
            rw [show R ++ ';' :: t = (R ++ [';']) ++ t by simp]
            exact pyReplace_append_not_head hpR
          rw [hX, show (R ++ [';']) ++ pyReplace (p :: pr) rep t =
            R ++ ';' :: pyReplace (p :: pr) rep t by simp]
          refine ampOK_span hR hent (ih t (Nat.le_trans ?_ hl) ht)
          simp only [List.length_append, List.length_cons]
          omega
        · refine ampOK_append (u := [c]) (ampOK_of_not_mem (by
            simp only [List.mem_singleton]
            exact fun h => hc h.symm)) ?_
          exact ih rest hl (ampOK_of_cons hOK)
theorem ampOK_flatten {L : List (List Char)} (hL : ∀ x ∈ L, ampOK x) :
    ampOK L.flatten := by
  induction L with
  | nil => exact ampOK_nil
  | cons x L ih =>
    rw [List.flatten_cons]
    exact ampOK_append (hL x (List.mem_cons_self _ _))
      (ih (fun y hy => hL y (List.mem_cons_of_mem _ hy)))

theorem ampOK_escapeChar (c : Char) : ampOK (escapeChar c) := by
  rw [escapeChar]
  split_ifs with h1 h2 h3 h4 h5
  · exact ampOK_span (R := ['a', 'm', 'p']) (by decide) (by decide) ampOK_nil
  · exact ampOK_span (R := ['l', 't']) (by decide) (by decide) ampOK_nil
  · exact ampOK_span (R := ['g', 't']) (by decide) (by decide) ampOK_nil
  · exact ampOK_span (R := ['q', 'u', 'o', 't']) (by decide) (by decide) ampOK_nil
  · exact ampOK_span (R := ['#', 'x', '2', '7']) (by decide) (by decide) ampOK_nil
  · refine ampOK_of_not_mem ?_
    simp only [List.mem_singleton]
    exact fun h => h1 h.symm

theorem ampOK_htmlEscape (l : List Char) : ampOK (htmlEscape l) :=
  ampOK_flatMap (fun c _ => ampOK_escapeChar c)

theorem ampOK_escapeAttrChar (c : Char) : ampOK (escapeAttrChar c) := by
  rw [escapeAttrChar]
  split_ifs with h1 h2 h3 h4
  · exact ampOK_span (R := ['a', 'm', 'p']) (by decide) (by decide) ampOK_nil
  · exact ampOK_span (R := ['l', 't']) (by decide) (by decide) ampOK_nil
  · exact ampOK_span (R := ['g', 't']) (by decide) (by decide) ampOK_nil
  · exact ampOK_span (R := ['q', 'u', 'o', 't']) (by decide) (by decide) ampOK_nil
  · refine ampOK_of_not_mem ?_
    simp only [List.mem_singleton]
    exact fun h => h1 h.symm

theorem ampOK_attrVal (v : List Char) : ampOK (v.flatMap escapeAttrChar) :=
  ampOK_flatMap (fun c _ => ampOK_escapeAttrChar c)

theorem mem_takeWhile_entChar {l : List Char} {x : Char}
    (hx : x ∈ l.takeWhile (fun c => entChar c)) : entChar x = true := by
  induction l with
  | nil => simp [List.takeWhile] at hx
  | cons c rest ih =>
    rw [List.takeWhile] at hx
    by_cases hc : entChar c = true
    · rw [hc] at hx
      rcases List.mem_cons.mp hx with h | h
      · exact h ▸ hc
      · exact ih h
    · rw [Bool.not_eq_true] at hc
      rw [hc] at hx
      simp at hx

theorem ampOK_escapeTextAux :
    ∀ (fuel : Nat) (l : List Char), l.length ≤ fuel → ampOK (escapeTextAux fuel l) := by
  intro fuel
  induction fuel with
  | zero =>
    intro l hl
    have : l = [] := List.eq_nil_of_length_eq_zero (Nat.le_zero.mp hl)
    subst this
    exact ampOK_nil
  | succ fuel ih =>
    intro l hl
    cases l with
    | nil => exact ampOK_nil
    | cons c rest =>
      simp only [List.length_cons, Nat.succ_le_succ_iff] at hl
      simp only [escapeTextAux]
      split_ifs with h1 h2 h3 h4
      · exact ampOK_span h2.1 (fun x hx => mem_takeWhile_entChar hx)
          (ih _ (Nat.le_trans (by simp [List.length_drop]) hl))
      · show ampOK ('&' :: (['a', 'm', 'p'] ++ ';' :: escapeTextAux fuel rest))
        exact ampOK_span (by decide) (by decide) (ih rest hl)
      · show ampOK ('&' :: (['l', 't'] ++ ';' :: escapeTextAux fuel rest))
        exact ampOK_span (by decide) (by decide) (ih rest hl)
      · show ampOK ('&' :: (['g', 't'] ++ ';' :: escapeTextAux fuel rest))
        exact ampOK_span (by decide) (by decide) (ih rest hl)
      · refine ampOK_append (u := [c]) (ampOK_of_not_mem (by
          simp only [List.mem_singleton]
          exact fun h => h1 h.symm)) (ih rest hl)

theorem ampOK_escapeText (l : List Char) : ampOK (escapeText l) :=
  ampOK_escapeTextAux l.length l (Nat.le_refl _)

theorem allowed_tag_name_no_amp {name : List Char}
    (h : String.mk name ∈ allowed_tags) : '&' ∉ name :=
  (by decide : ∀ s ∈ allowed_tags, '&' ∉ s.data) (String.mk name) h

theorem allowed_attr_name_no_amp {tag : String} {aname : List Char}
    (h : String.mk aname ∈ allowedAttrsFor tag) : '&' ∉ aname := by
  have hsub : ∀ s ∈ allowedAttrsFor tag, s ∈ ["href", "emoji-id", "class"] := by
    intro s hs
    rw [allowedAttrsFor] at hs
    cases hfind : allowed_attrs.find? (fun p => p.1 = tag) with
    | none => rw [hfind] at hs; simp at hs
    | some pr =>
      rw [hfind] at hs
      simp only [Option.map_some', Option.getD_some] at hs
      have hmem := List.mem_of_find?_eq_some hfind
      rw [allowed_attrs] at hmem
      rcases List.mem_cons.mp hmem with h1 | h1
      · rw [h1] at hs
        simp only [List.mem_cons, List.not_mem_nil, or_false]
        exact Or.inl (by simpa using hs)
      · rcases List.mem_cons.mp h1 with h2 | h2
        · rw [h2] at hs
          simp only [List.mem_cons, List.not_mem_nil, or_false]
          exact Or.inr (Or.inl (by simpa using hs))
        · rcases List.mem_cons.mp h2 with h3 | h3
          · rw [h3] at hs
            simp only [List.mem_cons, List.not_mem_nil, or_false]
            exact Or.inr (Or.inr (by simpa using hs))
          · simp at h3
  exact (by decide : ∀ s ∈ ["href", "emoji-id", "class"], '&' ∉ s.data)
    (String.mk aname) (hsub _ h)

theorem ampOK_serializeTok_sanitized {ts : List Tok} :
    ∀ t ∈ sanitizeToks ts, ampOK (serializeTok t) := by
  intro t ht
  rw [sanitizeToks] at ht
  rcases List.mem_filterMap.mp ht with ⟨t0, _, hmap⟩
  cases t0 with
  | text cs =>
    cases hmap
    exact ampOK_escapeText cs
  | tag closing name attrs =>
    have hmap' : (if String.mk name ∈ allowed_tags then
        some (Tok.tag closing name
          (attrs.filter (fun a => decide (String.mk a.1 ∈ allowedAttrsFor (String.mk name)))))
      else none) = some t := hmap
    by_cases hname : String.mk name ∈ allowed_tags
    · rw [if_pos hname] at hmap'
      cases hmap'
      have hnn : '&' ∉ name := allowed_tag_name_no_amp hname
      cases closing with
      | true =>
        refine ampOK_of_not_mem ?_
        intro hm
        rcases List.mem_append.mp hm with hm | hm
        · rcases List.mem_append.mp hm with hm | hm
          · simp at hm
          · exact hnn hm
        · simp at hm
      | false =>
        refine ampOK_append (ampOK_append (ampOK_append
          (ampOK_of_not_mem (by decide)) (ampOK_of_not_mem hnn)) ?_)
          (ampOK_of_not_mem (by decide))
        refine ampOK_flatMap ?_
        intro a ha
        have haname : String.mk a.1 ∈ allowedAttrsFor (String.mk name) :=
          of_decide_eq_true (List.mem_filter.mp ha).2
        rw [serializeAttr]
        refine ampOK_append (ampOK_append (ampOK_append (ampOK_append
          (ampOK_of_not_mem (by decide))
          (ampOK_of_not_mem (allowed_attr_name_no_amp haname)))
          (ampOK_of_not_mem (by decide)))
          (ampOK_attrVal a.2))
          (ampOK_of_not_mem (by decide))
    · rw [if_neg hname] at hmap'
      cases hmap'

theorem ampOK_bleach_clean (v : List Char) : ampOK (bleach_clean v) := by
  rw [bleach_clean]
  apply ampOK_flatten
  intro x hx
  rcases List.mem_map.mp hx with ⟨t, ht, heq⟩
  exact heq ▸ ampOK_serializeTok_sanitized t ht

theorem ampOK_formatBlock (b : ContentBlock) : ampOK (formatBlock b) := by
  simp only [formatBlock]
  split_ifs with h1 h2
  · refine ampOK_append ?_ (ampOK_of_not_mem (by decide))
    refine ampOK_pyReplace (by decide) (by decide) (by decide) _ _ (Nat.le_refl _) ?_
    refine ampOK_pyReplace (by decide) (by decide) (by decide) _ _ (Nat.le_refl _) ?_
    refine ampOK_pyReplace (by decide) (by decide) (by decide) _ _ (Nat.le_refl _) ?_
    exact ampOK_bleach_clean _
  · exact ampOK_append (ampOK_htmlEscape _) (ampOK_of_not_mem (by decide))
  · exact ampOK_nil

theorem ampOK_contentOf (blocks : List ContentBlock) : ampOK (contentOf blocks) := by
  rw [contentOf]
  apply ampOK_flatten
  intro x hx
  rcases List.mem_map.mp hx with ⟨b, _, heq⟩
  exact heq ▸ ampOK_formatBlock b

/-- The content part of a formatted entry contains no `&shy;` substring:
the stripping replace removes every occurrence, and on content whose
ampersands all start complete character references (which bleach and
`html.escape` guarantee) the removal cannot splice a new one. -/
theorem no_shy_strippedContentOf (blocks : List ContentBlock) :
    containsSub shyRef (strippedContentOf blocks) = false := by
  rw [strippedContentOf]
  have hinner : ampOK (pyReplace [softHyphen] [] (contentOf blocks)) :=
    ampOK_pyReplace (by decide) (by decide) (by decide) _ _ (Nat.le_refl _)
      (ampOK_contentOf blocks)
  exact no_shy_pyReplace _ _ (Nat.le_refl _) hinner

theorem asCheck_append {w z : List Char} (hw : asCheck w = true)
    (hz : asCheck z = true) : asCheck (w ++ z) = true := by
  induction w with
  | nil => simpa using hz
  | cons c w ih =>
    simp only [asCheck] at hw
    rw [List.cons_append]
    simp only [asCheck]
    rw [Bool.and_eq_true] at hw
    rcases hw with ⟨hw1, hw2⟩
    rw [Bool.and_eq_true]
    refine ⟨?_, ih hw2⟩
    by_cases hc : c = '&'
    · rw [if_pos hc] at hw1 ⊢
      cases w with
      | nil => simp at hw1
      | cons c2 w2 => exact hw1
    · rw [if_neg hc]
    
theorem asCheck_no_shy : ∀ (l : List Char), asCheck l = true →
    containsSub shyRef l = false := by
  intro l
  induction l with
  | nil => intro _; decide
  | cons c rest ih =>
    intro h
    simp only [asCheck] at h
    rw [Bool.and_eq_true] at h
    rcases h with ⟨h1, h2⟩
    rw [containsSub, Bool.or_eq_false_iff]
    refine ⟨?_, ih h2⟩
    by_cases hc : c = '&'
    · subst hc
      rw [if_pos rfl] at h1
      cases rest with
      | nil => simp at h1
      | cons c2 r2 =>
        have hne : c2 ≠ 's' := by
          intro he
          subst he
          simp at h1
        rw [shyRef_eq, List.isPrefixOf, List.isPrefixOf,
          show (('&' : Char) == '&') = true from rfl, Bool.true_and,
          show (('s' : Char) == c2) = false from beq_eq_false_iff_ne.mpr fun h => hne h.symm,
          Bool.false_and]
    · rw [shyRef_eq, List.isPrefixOf,
        show ('&' == c) = false from beq_eq_false_iff_ne.mpr fun h => hc h.symm,
        Bool.false_and]

theorem asCheck_escapeChar {c : Char} : asCheck (escapeChar c) = true := by
  rw [escapeChar]
  split_ifs with h1 h2 h3 h4 h5
  · decide
  · decide
  · decide
  · decide
  · decide
  · simp [asCheck, h1]

theorem asCheck_htmlEscape (t : List Char) : asCheck (htmlEscape t) = true := by
  induction t with
  | nil => decide
  | cons c t ih =>
    rw [htmlEscape, List.flatMap_cons]
    exact asCheck_append asCheck_escapeChar ih

/-- The escaped title contains no `&shy;` substring: `html.escape` turns
every ampersand into `&amp;`, so no `&` in the escaped title is followed
by an `s`. -/
theorem htmlEscape_no_shy (t : List Char) :
    containsSub shyRef (htmlEscape t) = false :=
  asCheck_no_shy _ (asCheck_htmlEscape t)

theorem htmlEscape_all_safe (l : List Char) :
    (htmlEscape l).all (fun c => !(c == '<') && !(c == quoteChar)) = true := by
  induction l with
  | nil => rfl
  | cons c rest ih =>
    rw [htmlEscape, List.flatMap_cons, List.all_append]
    rw [Bool.and_eq_true]
    refine ⟨?_, ih⟩
    unfold escapeChar
    split_ifs with h1 h2 h3 h4 h5
    · decide
    · decide
    · decide
    · decide
    · decide
    · simp only [List.all_cons, List.all_nil, Bool.and_true]
      rw [beq_eq_false_iff_ne.mpr h2, beq_eq_false_iff_ne.mpr h4]
      rfl

/-- The entry used in the C3 counterexample: its title is a single raw
soft hyphen. -/
def w3entry : Entry := ⟨"i", String.mk [softHyphen], "l", []⟩

/-- C3 fails: a raw soft hyphen in the *title* survives into the output,
because the final `replace` calls are applied to `content` only, after the
title has already been escaped and set aside. -/
theorem C3_counterexample_soft_hyphen_in_title_survives :
    softHyphen ∈ format_entry w3entry := by decide

/-- C3 amended: the `&shy;`-absence guarantee holds — the content portion
of every formatted entry contains neither a raw soft hyphen nor any
`&shy;` substring (the final replace removes every occurrence, and on
bleach/escape output, whose ampersands all start complete character
references, the single-pass removal cannot splice a new one), and a
`&shy;` occurring in the title is escaped to `&amp;shy;`, so the escaped
title contains no `&shy;` either — but the raw-U+00AD guarantee is scoped
to the content: the replace calls run on `content` only, after the title
is escaped and set aside, so a raw soft hyphen in the title survives into
the output. -/
theorem C3_amended_soft_hyphen_stripped_from_content_only (e : Entry) :
    format_entry e =
      "<a href=\"".toList ++ e.link.toList ++ "\"><b>".toList
        ++ htmlEscape e.title.toList ++ "</b></a>\n".toList
        ++ strippedContentOf e.content ∧
    softHyphen ∉ strippedContentOf e.content ∧
    containsSub shyRef (strippedContentOf e.content) = false ∧
    containsSub shyRef (htmlEscape e.title.toList) = false :=
  ⟨rfl, softHyphen_not_mem_strippedContentOf e.content,
    no_shy_strippedContentOf e.content, htmlEscape_no_shy e.title.toList⟩

/-- The entry used in the C4 counterexample: its link closes the `href`
attribute and injects a tag. -/
def w4entry : Entry := ⟨"i", "T", "\"><script>alert(1)</script>", []⟩

/-- C4 fails: the link is interpolated into the `href` attribute without
escaping, so a link containing a quote character alters the header's HTML
structure — here it injects a `<script>` element into the output. -/
theorem C4_counterexample_link_injects_markup :
    containsSub "<script>".toList (format_entry w4entry) = true ∧
    format_entry w4entry =
      "<a href=\"\"><script>alert(1)</script>\"><b>T</b></a>\n".toList := by
  exact ⟨by decide, by decide⟩

/-- C4 amended: the title really is HTML-escaped — the escaped title can
contain neither `<` nor `"`, so title text cannot introduce tags or break
out of the header markup — but the link is interpolated into the `href`
attribute unescaped, so a link containing quote characters or markup can
alter the header's HTML structure. -/
theorem C4_amended_title_escaped_link_interpolated_raw (e : Entry) :
    format_entry e =
      "<a href=\"".toList ++ e.link.toList ++ "\"><b>".toList
        ++ htmlEscape e.title.toList ++ "</b></a>\n".toList
        ++ strippedContentOf e.content ∧
    (htmlEscape e.title.toList).all (fun c => !(c == '<') && !(c == quoteChar)) = true :=
  ⟨rfl, htmlEscape_all_safe e.title.toList⟩

/-- A token passes the allow-list: text always; a tag only if its name is
in `allowed_tags` and each of its attributes is allowed for that tag. -/
def tokAllowed : Tok → Bool
  | .text _ => true
  | .tag _ name attrs =>
    decide (String.mk name ∈ allowed_tags) &&
      attrs.all (fun a => decide (String.mk a.1 ∈ allowedAttrsFor (String.mk name)))

/-- Every token surviving sanitization passes the allow-list: disallowed
tags are dropped (stripped), never kept in escaped form, and kept tags
carry only allowed attributes. -/
theorem sanitizeToks_allowed (ts : List Tok) :
    (sanitizeToks ts).all tokAllowed = true := by
  rw [List.all_eq_true]
  intro t ht
  rw [sanitizeToks] at ht
  rcases List.mem_filterMap.mp ht with ⟨t0, _, hmap⟩
  cases t0 with
  | text cs =>
    cases hmap
    rfl
  | tag closing name attrs =>
    have hmap' : (if String.mk name ∈ allowed_tags then
        some (Tok.tag closing name
          (attrs.filter (fun a => decide (String.mk a.1 ∈ allowedAttrsFor (String.mk name)))))
      else none) = some t := hmap
    by_cases hname : String.mk name ∈ allowed_tags
    · rw [if_pos hname] at hmap'
      cases hmap'
      show (decide (String.mk name ∈ allowed_tags) && _) = true
      rw [Bool.and_eq_true]
      refine ⟨decide_eq_true hname, ?_⟩
      rw [List.all_eq_true]
      intro a ha
      exact (List.mem_filter.mp ha).2
    · rw [if_neg hname] at hmap'
      cases hmap'

/-- The entry used in the C10 witness computation. -/
def w10entry : Entry :=
  ⟨"i", "T", "L", [⟨"text/html", "<script>alert(1)</script><b>bold</b>"⟩]⟩

/-- C10: cleaning the block `<script>alert(1)</script><b>bold</b>` strips
the `<script>` tag (keeping its text, since `strip=True` drops tags rather
than escaping them) and keeps `<b>bold</b>`; the formatted entry contains
`<b>bold</b>` and no `<script>`; and in general every tag surviving
sanitization is in the allow-list with only allowed attributes. -/
theorem C10_sanitization_allow_list :
    bleach_clean "<script>alert(1)</script><b>bold</b>".toList =
      "alert(1)<b>bold</b>".toList ∧
    containsSub "<b>bold</b>".toList (format_entry w10entry) = true ∧
    containsSub "<script>".toList (format_entry w10entry) = false ∧
    ∀ input : List Char, (sanitizeToks (tokenize input)).all tokAllowed = true :=
  ⟨by decide, by decide, by decide, fun input => sanitizeToks_allowed (tokenize input)⟩

end MVBot
